import Mathlib

/-!
Verification development for the giantswarm/ipam allocator.

The Go sources are shallowly embedded over natural numbers:
IPv4 addresses are their `uint32` big-endian values, `net.IPMask`
values are prefix lengths (the `ones` count that `mask.Size()`
extracts), and `uint32` overflow is made explicit with `% 2^32`.
Byte-level `net.IP` values (as produced by `DecimalToIP` and consumed
by `IPToDecimal`) are lists of byte values; the Go `nil` slice is the
empty list.
-/

namespace Ipam

/-- Error kinds of the allocator, from the `microerror` values declared in
the package (`maskTooBigError`, `incorrectNumberOfBoundariesError`,
`incorrectNumberOfFreeRangesError`, `spaceExhaustedError`, `nilIPError`,
`ipNotContainedError`, `maskIncorrectSizeError`). -/
inductive Err where
  | maskTooBig
  | incorrectNumberOfBoundaries
  | incorrectNumberOfFreeRanges
  | spaceExhausted
  | nilIP
  | ipNotContained
  | maskIncorrectSize
deriving DecidableEq, Repr

/-- Big-endian `uint32` value of the first four bytes of a byte list;
models `binary.BigEndian.Uint32`. -/
def beUint32 : List ℕ → ℕ
  | a :: b :: c :: d :: _ => a * 2 ^ 24 + b * 2 ^ 16 + c * 2 ^ 8 + d
  | _ => 0

/-- Models `IPToDecimal` (src/unnamed/part_011): a 16-byte IP is reduced to
its trailing four bytes, then read big-endian. -/
def IPToDecimal (ip : List ℕ) : ℕ :=
  if ip.length = 16 then beUint32 (ip.drop 12) else beUint32 ip

/-- Models `DecimalToIP` (src/unnamed/part_011): `make` a 4-byte slice and
`binary.BigEndian.PutUint32` the value into it. -/
def DecimalToIP (v : ℕ) : List ℕ :=
  [v / 2 ^ 24 % 256, v / 2 ^ 16 % 256, v / 2 ^ 8 % 256, v % 256]

/-- Models `Size` (src/unnamed/part_011): `2^(32-ones)` truncated to
`uint32` (the truncation only matters for a `/0` mask, where the Go
float-to-uint32 conversion yields `0`). -/
def Size (mask : ℕ) : ℕ := 2 ^ (32 - mask) % 2 ^ 32

/-- A CIDR network at the integer level: `ip` is the `uint32` base address,
`mask` the prefix length, models `net.IPNet` after the boundary conversion
to integers. -/
structure IPNet where
  ip : ℕ
  mask : ℕ
deriving DecidableEq, Repr

/-- Models `Range` (src/unnamed/part_011): the inclusive start and end of a
network, `end = start + Size(mask) - 1` in `uint32` arithmetic. -/
def Range (network : IPNet) : ℕ × ℕ :=
  (network.ip, (network.ip + Size network.mask + (2 ^ 32 - 1)) % 2 ^ 32)

/-- Models the `freeRange` struct (src/unnamed/part_011); the Go field
`end` is a Lean keyword and is rendered `end_`. -/
structure freeRange where
  start : ℕ
  end_ : ℕ
deriving DecidableEq, Repr

/-- The `uint32` value of `free.end - free.start + 1`, the capacity
expression used by `Space`. -/
def capOf (fr : freeRange) : ℕ :=
  ((fr.end_ + 2 ^ 32 - fr.start) % 2 ^ 32 + 1) % 2 ^ 32

/-- The order imposed by the comparator `IPNets.Less`
(src/unnamed/part_006): `fun a b => not (Less b a)`, which for this
comparator is `a.ip ≤ b.ip`. -/
def netLe (a b : IPNet) : Prop := a.ip ≤ b.ip

instance : DecidableRel netLe := fun a b => inferInstanceAs (Decidable (a.ip ≤ b.ip))

instance : IsTotal IPNet netLe := ⟨fun a b => Nat.le_total a.ip b.ip⟩

instance : IsTrans IPNet netLe := ⟨fun _ _ _ => Nat.le_trans⟩

/-- Models `sort.Sort(IPNets(existing))` with the comparator
`IPNets.Less` (src/unnamed/part_006): ascending by the `uint32` value of
the base address.  `sort.Sort` guarantees a permutation of the slice that
is non-decreasing with respect to `netLe` (and indeed runs insertion sort
on short slices). -/
def sortNets (l : List IPNet) : List IPNet :=
  List.insertionSort netLe l

/-- Models `Boundaries` (src/unnamed/part_011): sort the networks, emit
`rangeStart`, each network's start and end, then `rangeEnd`; reject an odd
number of boundaries. -/
def Boundaries (network : IPNet) (existing : List IPNet) : Except Err (List ℕ) :=
  let sorted := sortNets existing
  let rangeStart := (Range network).1
  let rangeEnd := (Range network).2
  let boundaries := rangeStart :: sorted.flatMap (fun e => [(Range e).1, (Range e).2]) ++ [rangeEnd]
  if boundaries.length % 2 ≠ 0 then .error .incorrectNumberOfBoundaries
  else .ok boundaries

/-- The pairing loop of `FreeRanges`:
`for i := 0; i < len(boundaries)-1; i = i + 2` appending
`freeRange{start: boundaries[i], end: boundaries[i+1]}`. -/
def pairUp : List ℕ → List freeRange
  | a :: b :: rest => ⟨a, b⟩ :: pairUp rest
  | _ => []

/-- Models `FreeRanges` (src/unnamed/part_011): reject an odd boundary
count, pair adjacent boundaries, and check the produced count is half the
boundary count. -/
def FreeRanges (boundaries : List ℕ) : Except Err (List freeRange) :=
  if boundaries.length % 2 ≠ 0 then .error .incorrectNumberOfBoundaries
  else
    let freeRanges := pairUp boundaries
    if freeRanges.length ≠ boundaries.length / 2 then .error .incorrectNumberOfFreeRanges
    else .ok freeRanges

/-- The indexed scan loop of `Space` (src/unnamed/part_011): at the first
range whose `end - start + 1` is at least `Size(mask)` return its start,
incremented (in `uint32` arithmetic) when the index is not zero. -/
def spaceLoop : List freeRange → ℕ → ℕ → Except Err ℕ
  | [], _, _ => .error .spaceExhausted
  | fr :: rest, mask, i =>
    if Size mask ≤ capOf fr then
      .ok (if i = 0 then fr.start else (fr.start + 1) % 2 ^ 32)
    else spaceLoop rest mask (i + 1)

/-- Models `Space` (src/unnamed/part_011). -/
def Space (freeRanges : List freeRange) (mask : ℕ) : Except Err ℕ :=
  spaceLoop freeRanges mask 0

/-- The claim's reading of the placement scan, written with `findIdx?`:
the first index `i` whose range satisfies the capacity test yields
`start` when `i = 0` and `start + 1` when `i > 0`; otherwise
`spaceExhausted`. -/
def SpaceSpec (freeRanges : List freeRange) (mask : ℕ) : Except Err ℕ :=
  match List.findIdx? (fun fr => decide (Size mask ≤ capOf fr)) freeRanges with
  | some i =>
    let r := freeRanges.getD i ⟨0, 0⟩
    if i = 0 then .ok r.start else .ok ((r.start + 1) % 2 ^ 32)
  | none => .error .spaceExhausted

/-- Clearing of the low `32 - mask` bits of an address, the effect of the
byte-wise AND with a canonical prefix mask. -/
def maskApply (mask x : ℕ) : ℕ := x / 2 ^ (32 - mask) * 2 ^ (32 - mask)

/-- Models `net.IPNet.Contains`: the network's base and the address agree
after both are ANDed with the network's mask. -/
def Contains (network : IPNet) (ip : ℕ) : Bool :=
  decide (maskApply network.mask network.ip = maskApply network.mask ip)

/-- Models `Free` (src/unnamed/part_011, lines 189-242): the mask-size
check, the in-place sort of `existing`, `Boundaries` (which sorts again),
`FreeRanges`, `Space`, then the nil-IP, containment and mask post-condition
checks on the constructed network. -/
def Free (network : IPNet) (mask : ℕ) (existing : List IPNet) : Except Err IPNet :=
  if Size network.mask < Size mask then .error .maskTooBig
  else
    match Boundaries network (sortNets existing) with
    | .error e => .error e
    | .ok boundaries =>
      match FreeRanges boundaries with
      | .error e => .error e
      | .ok freeRanges =>
        match Space freeRanges mask with
        | .error e => .error e
        | .ok free =>
          let freeIP := DecimalToIP free
          let freeNetwork : IPNet := ⟨IPToDecimal freeIP, mask⟩
          if freeIP = [] then .error .nilIP
          else if Contains network freeNetwork.ip = false then .error .ipNotContained
          else if mask ≠ freeNetwork.mask then .error .maskIncorrectSize
          else .ok freeNetwork

/-- `Free` together with the final contents of the caller's `existing`
slice: `sort.Sort(IPNets(existing))` permutes the caller's backing array
in place (once in `Free`, once more inside `Boundaries`), and it runs only
after the mask-size check has passed. -/
def FreeWithState (network : IPNet) (mask : ℕ) (existing : List IPNet) :
    Except Err IPNet × List IPNet :=
  (Free network mask existing,
   if Size network.mask < Size mask then existing else sortNets (sortNets existing))

/-- Models the comparator `ipNets.Less` (src/unnamed/part_005): equal base
addresses fall back to comparing block sizes, larger size first; otherwise
ascending base address. -/
def ipNetsLess (a b : IPNet) : Bool :=
  if a.ip = b.ip then decide (Size b.mask < Size a.mask)
  else decide (a.ip < b.ip)

/-- The order imposed by the comparator `ipNets.Less`
(src/unnamed/part_005): `fun a b => not (Less b a)`. -/
def ipamLe (a b : IPNet) : Prop := ipNetsLess b a = false

instance : DecidableRel ipamLe :=
  fun a b => inferInstanceAs (Decidable (ipNetsLess b a = false))

instance : IsTotal IPNet ipamLe := ⟨by
  intro a b
  simp only [ipamLe, ipNetsLess]
  split_ifs with h1 h2 <;> simp <;> omega⟩

instance : IsTrans IPNet ipamLe := ⟨by
  intro a b c hab hbc
  simp only [ipamLe, ipNetsLess] at hab hbc ⊢
  split_ifs at hab hbc ⊢ <;> simp_all <;> omega⟩

/-- A sort of networks under `ipNets.Less` (src/unnamed/part_005):
non-decreasing with respect to `fun a b => not (Less b a)`. -/
def sortNetsIpam (l : List IPNet) : List IPNet :=
  List.insertionSort ipamLe l

/-- A network whose IP is kept at the byte level, for the primitives of
src/range.go that read and write `net.IP` byte slices. -/
structure ByteIPNet where
  ip : List ℕ
  mask : ℕ
deriving DecidableEq, Repr

/-- Models `Next` (src/range.go, lines 58-69):
`DecimalToIP(IPToDecimal(network.IP) + Size(network.Mask))` with the
`uint32` addition wrapping, mask carried over. -/
def Next (network : ByteIPNet) : ByteIPNet :=
  ⟨DecimalToIP ((IPToDecimal network.ip + Size network.mask) % 2 ^ 32), network.mask⟩

/-- Models `key` (src/unnamed/part_001): the storage key
`/ipam/subnet/<dotted base>-<prefix>`, the result of replacing `/` by `-`
in `network.String()` and prefixing `/ipam/subnet/`. -/
def key (network : IPNet) : String :=
  "/ipam/subnet/" ++ toString (network.ip / 2 ^ 24 % 256) ++ "." ++
    toString (network.ip / 2 ^ 16 % 256) ++ "." ++
    toString (network.ip / 2 ^ 8 % 256) ++ "." ++
    toString (network.ip % 256) ++ "-" ++ toString network.mask

/-- Models `Storage.Delete` of the memory storage (src/unnamed/part_001,
lines 331-338): `delete(s.data, key)` removes the key if present and is a
no-op otherwise; it never fails.  The map is rendered as a key-value
list. -/
def storageDelete (data : List (String × String)) (k : String) : List (String × String) :=
  data.filter (fun p => decide (p.1 ≠ k))

/-- Models `Service.DeleteSubnet` (src/unnamed/part_001, lines 160-170):
delete the subnet's storage key and return the error from the storage
(always absent for the memory storage). -/
def DeleteSubnet (data : List (String × String)) (subnet : IPNet) :
    List (String × String) × Option Err :=
  (storageDelete data (key subnet), none)

/-- The claim's ordering for the in-use sort: ascending by base address,
ties broken by the larger block (bigger `Size`) first. -/
def SortOrder (a b : IPNet) : Prop :=
  a.ip < b.ip ∨ (a.ip = b.ip ∧ Size b.mask < Size a.mask)

/-- Inclusive address ranges of two networks intersect (both ranges are
nonempty, so this is the standard interval-overlap test). -/
def Overlap (a b : IPNet) : Prop :=
  (Range a).1 ≤ (Range b).2 ∧ (Range b).1 ≤ (Range a).2

instance (a b : IPNet) : Decidable (Overlap a b) :=
  inferInstanceAs (Decidable (_ ∧ _))

/-- A canonical network: prefix length at most 32, base a `uint32` value
with its host bits cleared (the block size divides the base). -/
def Canonical (n : IPNet) : Prop :=
  n.mask ≤ 32 ∧ n.ip < 2 ^ 32 ∧ Size n.mask ∣ n.ip

instance (n : IPNet) : Decidable (Canonical n) :=
  inferInstanceAs (Decidable (_ ∧ _))

/-- The address range of `e` is strictly inside the address range of the
parent `P` (no wrap intended: stated on the unwrapped bounds). -/
def StrictlyInside (e P : IPNet) : Prop :=
  P.ip ≤ e.ip ∧ e.ip + Size e.mask ≤ P.ip + Size P.mask ∧ Size e.mask < Size P.mask

instance (e P : IPNet) : Decidable (StrictlyInside e P) :=
  inferInstanceAs (Decidable (_ ∧ _))

instance (a b : IPNet) : Decidable (SortOrder a b) :=
  inferInstanceAs (Decidable (_ ∨ _))

/-- The free-range list that the boundary pairing produces from a sorted
block list: a first range from `prev` to the first block's start, interior
ranges from each block's end to the next block's start, and a final range
ending at `T`. -/
def gapRanges (prev : ℕ) (L : List IPNet) (T : ℕ) : List freeRange :=
  match L with
  | [] => [⟨prev, T⟩]
  | x :: xs => ⟨prev, (Range x).1⟩ :: gapRanges (Range x).2 xs T

/-- Concrete parent `10.4.0.0/16` used by witnesses. -/
def wParent : IPNet := ⟨168034304, 16⟩

/-- Concrete in-use block `10.4.0.0/24` used by witnesses. -/
def wUsed : IPNet := ⟨168034304, 24⟩

/-- Concrete parent `10.0.0.0/24` of the overlap counterexample. -/
def cParent : IPNet := ⟨167772160, 24⟩

/-- Concrete in-use block `10.0.0.1/32` of the overlap counterexample. -/
def cUsed : IPNet := ⟨167772161, 32⟩

theorem two32 : (2 : ℕ) ^ 32 = 4294967296 := by norm_num

theorem beUint32_decimalToIP (v : ℕ) : beUint32 (DecimalToIP v) = v % 2 ^ 32 := by
  simp only [DecimalToIP, beUint32, two32]
  omega

theorem decimalToIP_length (v : ℕ) : (DecimalToIP v).length = 4 := rfl

theorem decimalToIP_ne_nil (v : ℕ) : DecimalToIP v ≠ [] := by
  intro h
  have := congrArg List.length h
  simp [decimalToIP_length] at this

theorem ipToDecimal_decimalToIP (v : ℕ) : IPToDecimal (DecimalToIP v) = v % 2 ^ 32 := by
  rw [IPToDecimal, if_neg (by simp [decimalToIP_length]), beUint32_decimalToIP]

theorem Size_eq (mask : ℕ) (h1 : 1 ≤ mask) : Size mask = 2 ^ (32 - mask) := by
  have h : 2 ^ (32 - mask) < 2 ^ 32 := by
    apply Nat.pow_lt_pow_right (by norm_num)
    omega
  exact Nat.mod_eq_of_lt h

theorem Size_le (mask : ℕ) : Size mask ≤ 2 ^ 32 := le_of_lt (Nat.mod_lt _ (by norm_num))

theorem Size_dvd_two32 (mask : ℕ) (h1 : 1 ≤ mask) : Size mask ∣ 2 ^ 32 := by
  rw [Size_eq mask h1]
  exact Nat.pow_dvd_pow 2 (by omega)

theorem Size_dvd_Size {m p : ℕ} (hm : 1 ≤ m) (hp : 1 ≤ p) (h : Size m ≤ Size p) :
    Size m ∣ Size p := by
  rw [Size_eq m hm] at h ⊢
  rw [Size_eq p hp] at h ⊢
  exact Nat.pow_dvd_pow 2 ((Nat.pow_le_pow_iff_right (by norm_num)).1 h)

theorem Size_pos_mask (mask : ℕ) (h : 0 < Size mask) : 1 ≤ mask := by
  by_contra hc
  have : mask = 0 := by omega
  simp [Size, this] at h

theorem rangeEnd_eq (n : IPNet) (h1 : 1 ≤ Size n.mask) (h2 : n.ip + Size n.mask ≤ 2 ^ 32) :
    (Range n).2 = n.ip + Size n.mask - 1 := by
  simp only [Range, two32] at h2 ⊢
  omega

theorem capOf_eq (s e : ℕ) (h1 : s ≤ e) (h2 : e < 2 ^ 32) :
    capOf ⟨s, e⟩ = (e - s + 1) % 2 ^ 32 := by
  simp only [capOf, two32] at h2 ⊢
  omega

theorem cap_strip {sz c : ℕ} (h4 : 4 ≤ sz) (h : sz ≤ c % 2 ^ 32) (hc : c ≤ 2 ^ 32) :
    sz ≤ c ∧ c < 2 ^ 32 := by
  rw [two32] at h hc
  rw [two32]
  omega

theorem flat_len (l : List IPNet) :
    (l.flatMap (fun e => [(Range e).1, (Range e).2])).length = 2 * l.length := by
  induction l with
  | nil => rfl
  | cons x xs ih => simp [List.flatMap_cons, ih]; omega

theorem boundaries_eq (P : IPNet) (E : List IPNet) :
    Boundaries P E =
      .ok ((Range P).1 :: (sortNets E).flatMap (fun e => [(Range e).1, (Range e).2])
        ++ [(Range P).2]) := by
  have hlen : (((Range P).1 :: (sortNets E).flatMap (fun e => [(Range e).1, (Range e).2]))
      ++ [(Range P).2]).length % 2 = 0 := by
    simp only [List.length_append, List.length_cons, List.length_nil, flat_len]
    omega
  simp only [Boundaries]
  rw [if_neg (by omega)]

theorem pairUp_length (l : List ℕ) : (pairUp l).length = l.length / 2 := by
  induction l using pairUp.induct with
  | case1 a b rest ih =>
    simp [pairUp, ih]
    omega
  | case2 l h =>
    cases l with
    | nil => simp [pairUp]
    | cons a t =>
      cases t with
      | nil => simp [pairUp]
      | cons b r => exact absurd rfl (h a b r)

theorem freeRanges_eq (l : List ℕ) (h : l.length % 2 = 0) :
    FreeRanges l = .ok (pairUp l) := by
  rw [FreeRanges, if_neg (by omega)]
  simp only [pairUp_length]
  rw [if_neg (by omega)]

theorem pairUp_gapRanges (L : List IPNet) (prev T : ℕ) :
    pairUp (prev :: L.flatMap (fun e => [(Range e).1, (Range e).2]) ++ [T]) =
      gapRanges prev L T := by
  induction L generalizing prev with
  | nil => simp [pairUp, gapRanges]
  | cons x xs ih =>
    have hlist : (prev :: (x :: xs).flatMap (fun e => [(Range e).1, (Range e).2])) ++ [T] =
        prev :: (Range x).1 ::
          (((Range x).2 :: xs.flatMap (fun e => [(Range e).1, (Range e).2])) ++ [T]) := by
      simp
    rw [hlist]
    simp only [pairUp, gapRanges]
    exact congrArg _ (ih (Range x).2)

theorem spaceLoop_err (frs : List freeRange) (m i : ℕ) (e : Err)
    (h : spaceLoop frs m i = .error e) : e = .spaceExhausted := by
  induction frs generalizing i with
  | nil =>
    simp only [spaceLoop] at h
    cases h
    rfl
  | cons fr rest ih =>
    rw [spaceLoop] at h
    split at h
    · cases h
    · exact ih (i + 1) h

theorem free_unfold (P : IPNet) (m : ℕ) (E : List IPNet) :
    Free P m E =
      if Size P.mask < Size m then .error .maskTooBig
      else
        match Space (gapRanges (Range P).1 (sortNets (sortNets E)) (Range P).2) m with
        | .error e => .error e
        | .ok v =>
          if Contains P (IPToDecimal (DecimalToIP v)) = false then .error .ipNotContained
          else .ok ⟨IPToDecimal (DecimalToIP v), m⟩ := by
  have hlen : (((Range P).1 :: (sortNets (sortNets E)).flatMap (fun e => [(Range e).1, (Range e).2]))
      ++ [(Range P).2]).length % 2 = 0 := by
    simp only [List.length_append, List.length_cons, List.length_nil, flat_len]
    omega
  rw [Free]
  split
  · rfl
  · simp only [boundaries_eq, freeRanges_eq _ hlen, pairUp_gapRanges]
    cases hs : Space (gapRanges (Range P).1 (sortNets (sortNets E)) (Range P).2) m with
    | error e => simp
    | ok v =>
      simp only [if_neg (decimalToIP_ne_nil v)]
      cases hc : Contains P (IPToDecimal (DecimalToIP v)) with
      | false => simp
      | true => simp

theorem sortNets_perm (l : List IPNet) : (sortNets l).Perm l :=
  List.perm_insertionSort netLe l

theorem sortNets_length (l : List IPNet) : (sortNets l).length = l.length :=
  (sortNets_perm l).length_eq

theorem sortNets_sorted (l : List IPNet) :
    List.Pairwise (fun a b : IPNet => a.ip ≤ b.ip) (sortNets l) :=
  List.sorted_insertionSort netLe l

theorem space_err (frs : List freeRange) (m : ℕ) (e : Err)
    (h : Space frs m = .error e) : e = .spaceExhausted :=
  spaceLoop_err frs m 0 e h

theorem spaceLoop_pos (frs : List freeRange) (m : ℕ) :
    ∀ i : ℕ, i ≠ 0 →
      spaceLoop frs m i =
        match List.findIdx? (fun fr => decide (Size m ≤ capOf fr)) frs with
        | some j => .ok (((frs.getD j ⟨0, 0⟩).start + 1) % 2 ^ 32)
        | none => .error .spaceExhausted := by
  induction frs with
  | nil =>
    intro i hi
    simp [spaceLoop]
  | cons fr rest ih =>
    intro i hi
    simp only [spaceLoop]
    by_cases hcap : Size m ≤ capOf fr
    · rw [if_pos hcap, if_neg hi]
      simp [List.findIdx?_cons, hcap]
    · rw [if_neg hcap, ih (i + 1) (by omega)]
      rw [List.findIdx?_cons, if_neg (by simpa using hcap), List.findIdx?_succ]
      cases hfind : List.findIdx? (fun fr => decide (Size m ≤ capOf fr)) rest with
      | none => simp
      | some j => simp

/-- C2: `Space` scans the free ranges in ascending index order, stops at the
first index whose range passes the capacity test `end - start + 1 >= Size(mask)`,
returns that range's start (incremented when the index is positive), and
fails with `spaceExhausted` when no range passes. -/
theorem space_first_fit (frs : List freeRange) (m : ℕ) :
    Space frs m = SpaceSpec frs m := by
  rw [Space, SpaceSpec]
  cases frs with
  | nil => simp [spaceLoop]
  | cons fr rest =>
    simp only [spaceLoop]
    by_cases hcap : Size m ≤ capOf fr
    · rw [if_pos hcap]
      simp [List.findIdx?_cons, hcap]
    · rw [if_neg hcap, spaceLoop_pos rest m 1 (by omega)]
      rw [List.findIdx?_cons, if_neg (by simpa using hcap), List.findIdx?_succ]
      cases hfind : List.findIdx? (fun fr => decide (Size m ≤ capOf fr)) rest with
      | none => simp
      | some j => simp

/-- C3: `Boundaries` returns exactly the parent's inclusive start, the
inclusive start and end of each in-use network taken in ascending order,
and the parent's inclusive end; the list has even length `2k + 2`, its
first and last entries are the parent's bounds, and the odd-length
rejection branch never fires. -/
theorem boundaries_exact_list (P : IPNet) (E : List IPNet) :
    Boundaries P E =
      .ok (((Range P).1 :: (sortNets E).flatMap (fun e => [(Range e).1, (Range e).2]))
        ++ [(Range P).2]) ∧
    ((((Range P).1 :: (sortNets E).flatMap (fun e => [(Range e).1, (Range e).2]))
        ++ [(Range P).2]).length = 2 * E.length + 2) ∧
    ((((Range P).1 :: (sortNets E).flatMap (fun e => [(Range e).1, (Range e).2]))
        ++ [(Range P).2]).head? = some (Range P).1) ∧
    ((((Range P).1 :: (sortNets E).flatMap (fun e => [(Range e).1, (Range e).2]))
        ++ [(Range P).2]).getLast? = some (Range P).2) ∧
    (sortNets E).Perm E ∧
    List.Pairwise (fun a b : IPNet => a.ip ≤ b.ip) (sortNets E) := by
  refine ⟨boundaries_eq P E, ?_, ?_, List.getLast?_concat _, sortNets_perm E, sortNets_sorted E⟩
  · simp only [List.length_append, List.length_cons, List.length_nil, flat_len, sortNets_length]
  · simp

theorem ipamLe_iff (a b : IPNet) :
    ipamLe a b ↔ (a.ip < b.ip ∨ (a.ip = b.ip ∧ Size b.mask ≤ Size a.mask)) := by
  simp only [ipamLe, ipNetsLess]
  split_ifs with h <;> simp [h] <;> omega

/-- C5: the in-use sort comparator `ipNets.Less` orders networks ascending
by base address and, on equal base addresses, places the larger block
(bigger `Size`) first; consequently a `Less`-sorted permutation is
pairwise ordered that way. -/
theorem ipNetsLess_orders_base_then_size :
    (∀ a b : IPNet, ipNetsLess a b = true ↔ SortOrder a b) ∧
    ∀ l : List IPNet,
      List.Pairwise
        (fun a b : IPNet => a.ip < b.ip ∨ (a.ip = b.ip ∧ Size b.mask ≤ Size a.mask))
        (sortNetsIpam l) := by
  constructor
  · intro a b
    simp only [ipNetsLess, SortOrder]
    split_ifs with h <;> simp [h] <;> omega
  · intro l
    exact (List.sorted_insertionSort ipamLe l).imp (fun {a b} h => (ipamLe_iff a b).1 h)

/-- C7 counterexample: `Free` sorts the caller's slice in place, so after a
call with an unsorted in-use list the slice is no longer in its original
order. -/
theorem free_mutates_existing_counterexample :
    (FreeWithState ⟨168034304, 16⟩ 24 [⟨168034560, 24⟩, ⟨168034304, 24⟩]).2 ≠
      [⟨168034560, 24⟩, ⟨168034304, 24⟩] := by decide

/-- C7 amended: `Free` neither adds nor removes networks: the caller's
slice after the call is a permutation of its original contents (sorted in
place), though not necessarily in the original order. -/
theorem free_existing_perm (P : IPNet) (m : ℕ) (E : List IPNet) :
    ((FreeWithState P m E).2).Perm E := by
  simp only [FreeWithState]
  split
  · exact List.Perm.refl E
  · exact (sortNets_perm (sortNets E)).trans (sortNets_perm E)

/-- C8: `Next` returns the contiguous successor block: same mask, base
address advanced by the block size modulo `2^32`; in particular
`Next(255.255.255.0/24) = 0.0.0.0/24`. -/
theorem next_base_add_size_mod (n : ByteIPNet) :
    IPToDecimal (Next n).ip = (IPToDecimal n.ip + Size n.mask) % 2 ^ 32 ∧
    (Next n).mask = n.mask ∧
    Next ⟨[255, 255, 255, 0], 24⟩ = ⟨[0, 0, 0, 0], 24⟩ := by
  refine ⟨?_, rfl, by decide⟩
  show IPToDecimal (DecimalToIP ((IPToDecimal n.ip + Size n.mask) % 2 ^ 32)) = _
  rw [ipToDecimal_decimalToIP, Nat.mod_eq_of_lt (Nat.mod_lt _ (by norm_num))]

/-- C9: `DeleteSubnet` is idempotent, reports no error, and deleting a
subnet whose key is absent from storage leaves the storage unchanged. -/
theorem deleteSubnet_idempotent (d : List (String × String)) (x : IPNet) :
    DeleteSubnet (DeleteSubnet d x).1 x = DeleteSubnet d x ∧
    (DeleteSubnet d x).2 = none ∧
    (key x ∉ d.map Prod.fst → (DeleteSubnet d x).1 = d) := by
  refine ⟨?_, rfl, ?_⟩
  · simp only [DeleteSubnet, storageDelete, Prod.mk.injEq, and_true]
    apply List.filter_eq_self.mpr
    intro a ha
    exact (List.mem_filter.mp ha).2
  · intro h
    simp only [DeleteSubnet, storageDelete]
    apply List.filter_eq_self.mpr
    intro a ha
    have hne : a.1 ≠ key x := by
      intro he
      exact h (he ▸ List.mem_map_of_mem Prod.fst ha)
    exact decide_eq_true hne

/-- C9 witness: on empty storage, deleting a subnet is error-free, leaves
the storage empty, and a second deletion returns the same result. -/
theorem deleteSubnet_idempotent_witness :
    DeleteSubnet (DeleteSubnet [] wParent).1 wParent = DeleteSubnet [] wParent ∧
    (DeleteSubnet [] wParent).2 = none ∧
    (DeleteSubnet [] wParent).1 = [] :=
  ⟨(deleteSubnet_idempotent [] wParent).1,
   (deleteSubnet_idempotent [] wParent).2.1,
   (deleteSubnet_idempotent [] wParent).2.2 (by simp)⟩

/-- C10: `DecimalToIP` always yields a 4-byte (hence non-nil) address, and
`Free` never returns the `nilIP` post-condition error. -/
theorem decimalToIP_nonnil_free_never_nilIP :
    (∀ v : ℕ, (DecimalToIP v).length = 4) ∧
    ∀ (P : IPNet) (m : ℕ) (E : List IPNet), Free P m E ≠ .error .nilIP := by
  refine ⟨decimalToIP_length, ?_⟩
  intro P m E h
  rw [free_unfold] at h
  by_cases hmask : Size P.mask < Size m
  · rw [if_pos hmask] at h
    simp at h
  · rw [if_neg hmask] at h
    cases hs : Space (gapRanges (Range P).1 (sortNets (sortNets E)) (Range P).2) m with
    | error e =>
      rw [hs] at h
      simp at h
      have he := space_err _ _ _ hs
      rw [h] at he
      cases he
    | ok v =>
      rw [hs] at h
      by_cases hc : Contains P (IPToDecimal (DecimalToIP v)) = false
      · simp [hc] at h
      · simp [hc] at h

/-- C10 witness: a concrete call does not return the `nilIP` error. -/
theorem decimalToIP_nonnil_free_never_nilIP_witness :
    Free wParent 24 [wUsed] ≠ .error .nilIP :=
  decimalToIP_nonnil_free_never_nilIP.2 wParent 24 [wUsed]

theorem dvd_lt_add_le {a b c : ℕ} (hb : a ∣ b) (hc : a ∣ c) (h : b < c) : b + a ≤ c := by
  obtain ⟨k, hk⟩ := hb
  obtain ⟨K, hK⟩ := hc
  subst hk hK
  have ha : 0 < a := by
    rcases Nat.eq_zero_or_pos a with h0 | h0
    · subst h0; omega
    · exact h0
  have hkK : k < K := Nat.lt_of_mul_lt_mul_left h
  calc a * k + a = a * (k + 1) := by ring
  _ ≤ a * K := Nat.mul_le_mul_left a hkK
  _ = a * K := rfl

/-- Soundness of the scan over the interior and final free ranges: every
range offered to the scan at a positive index starts at the occupied end
address `prev` of the block to its left, so a successful placement lands
strictly after `prev` and clear of every remaining block. -/
theorem spaceLoop_tail_sound (m T : ℕ) (hsz : 4 ≤ Size m) (hT : T < 2 ^ 32)
    (hTdvd : Size m ∣ T + 1) :
    ∀ (L : List IPNet) (prev i : ℕ), i ≠ 0 →
      Size m ∣ prev + 1 → prev ≤ T →
      (∀ e ∈ L, Size m ∣ e.ip ∧ Size m ≤ Size e.mask ∧ Size m ∣ Size e.mask ∧
        prev < e.ip ∧ e.ip + Size e.mask ≤ T + 1) →
      List.Pairwise (fun a b : IPNet => a.ip + Size a.mask ≤ b.ip) L →
      ∀ v : ℕ, spaceLoop (gapRanges prev L T) m i = .ok v →
      prev < v ∧ v + Size m ≤ T + 1 ∧
      ∀ e ∈ L, v + Size m ≤ e.ip ∨ e.ip + Size e.mask ≤ v := by
  intro L
  induction L with
  | nil =>
    intro prev i hi hdvd hprevT helems hpw v hok
    simp only [gapRanges, spaceLoop] at hok
    by_cases hcap : Size m ≤ capOf ⟨prev, T⟩
    · rw [if_pos hcap, if_neg hi] at hok
      cases hok
      rw [capOf_eq prev T hprevT hT] at hcap
      have hstrip := cap_strip hsz hcap (by omega)
      have hgap : Size m ∣ T - prev := by
        have hsub := Nat.dvd_sub' hTdvd hdvd
        have heq : T + 1 - (prev + 1) = T - prev := by omega
        rwa [heq] at hsub
      have hge : Size m ≤ T - prev := Nat.le_of_dvd (by omega) hgap
      refine ⟨by omega, by omega, by simp⟩
    · rw [if_neg hcap] at hok
      cases hok
  | cons x xs ih =>
    intro prev i hi hdvd hprevT helems hpw v hok
    obtain ⟨hdx, hsx, hdsx, hpx, hbx⟩ := helems x (List.mem_cons_self x xs)
    rw [List.pairwise_cons] at hpw
    obtain ⟨hxall, hpwxs⟩ := hpw
    have hr2 : (Range x).2 = x.ip + Size x.mask - 1 :=
      rangeEnd_eq x (by omega) (by omega)
    have hr1 : (Range x).1 = x.ip := rfl
    simp only [gapRanges, hr1, hr2] at hok
    simp only [spaceLoop] at hok
    by_cases hcap : Size m ≤ capOf ⟨prev, x.ip⟩
    · rw [if_pos hcap, if_neg hi] at hok
      cases hok
      rw [capOf_eq prev x.ip (by omega) (by omega)] at hcap
      have hstrip := cap_strip hsz hcap (by omega)
      have hgap : Size m ∣ x.ip - (prev + 1) := Nat.dvd_sub' hdx hdvd
      have hge : Size m ≤ x.ip - (prev + 1) := Nat.le_of_dvd (by omega) hgap
      have hv : (prev + 1) % 2 ^ 32 = prev + 1 := Nat.mod_eq_of_lt (by omega)
      rw [hv]
      refine ⟨by omega, by omega, ?_⟩
      intro e he
      rcases List.mem_cons.mp he with rfl | hexs
      · left; omega
      · left
        have := hxall e hexs
        omega
    · rw [if_neg hcap] at hok
      have hstep : prev < x.ip + Size x.mask - 1 := by omega
      obtain ⟨h1, h2, h3⟩ := ih (x.ip + Size x.mask - 1) (i + 1) (by omega)
        (by
          have heq : x.ip + Size x.mask - 1 + 1 = x.ip + Size x.mask := by omega
          rw [heq]
          exact Nat.dvd_add hdx hdsx)
        (by omega)
        (by
          intro e he
          obtain ⟨hde, hse, hdse, _, hbe⟩ := helems e (List.mem_cons_of_mem x he)
          exact ⟨hde, hse, hdse, by have := hxall e he; omega, hbe⟩)
        hpwxs v hok
      refine ⟨by omega, h2, ?_⟩
      intro e he
      rcases List.mem_cons.mp he with rfl | hexs
      · right; omega
      · exact h3 e hexs

/-- Soundness of the full placement scan starting at index 0: the first
free range starts at the parent's own (free) start address `S`, every
later range starts at an occupied end address, and a successful placement
is clear of every in-use block. -/
theorem spaceLoop_head_sound (m T : ℕ) (hsz : 4 ≤ Size m) (hT : T < 2 ^ 32)
    (hTdvd : Size m ∣ T + 1) (S : ℕ) (hS : Size m ∣ S) (hST : S ≤ T)
    (L : List IPNet)
    (helems : ∀ e ∈ L, Size m ∣ e.ip ∧ Size m ≤ Size e.mask ∧ Size m ∣ Size e.mask ∧
      S ≤ e.ip ∧ e.ip + Size e.mask ≤ T + 1)
    (hpw : List.Pairwise (fun a b : IPNet => a.ip + Size a.mask ≤ b.ip) L)
    (v : ℕ) (hok : spaceLoop (gapRanges S L T) m 0 = .ok v) :
    S ≤ v ∧ v + Size m ≤ T + 1 ∧
    ∀ e ∈ L, v + Size m ≤ e.ip ∨ e.ip + Size e.mask ≤ v := by
  cases L with
  | nil =>
    simp only [gapRanges, spaceLoop] at hok
    by_cases hcap : Size m ≤ capOf ⟨S, T⟩
    · rw [if_pos hcap] at hok
      rw [ite_true] at hok
      cases hok
      rw [capOf_eq S T hST hT] at hcap
      have hstrip := cap_strip hsz hcap (by omega)
      refine ⟨le_refl S, by omega, by simp⟩
    · rw [if_neg hcap] at hok
      cases hok
  | cons x xs =>
    obtain ⟨hdx, hsx, hdsx, hpx, hbx⟩ := helems x (List.mem_cons_self x xs)
    rw [List.pairwise_cons] at hpw
    obtain ⟨hxall, hpwxs⟩ := hpw
    have hr2 : (Range x).2 = x.ip + Size x.mask - 1 :=
      rangeEnd_eq x (by omega) (by omega)
    have hr1 : (Range x).1 = x.ip := rfl
    simp only [gapRanges, hr1, hr2] at hok
    simp only [spaceLoop] at hok
    by_cases hcap : Size m ≤ capOf ⟨S, x.ip⟩
    · rw [if_pos hcap] at hok
      rw [ite_true] at hok
      cases hok
      rw [capOf_eq S x.ip hpx (by omega)] at hcap
      have hstrip := cap_strip hsz hcap (by omega)
      have hgap : Size m ∣ x.ip - S := Nat.dvd_sub' hdx hS
      have hge : Size m ≤ x.ip - S := Nat.le_of_dvd (by omega) hgap
      refine ⟨le_refl S, by omega, ?_⟩
      intro e he
      rcases List.mem_cons.mp he with rfl | hexs
      · left; omega
      · left
        have := hxall e hexs
        omega
    · rw [if_neg hcap] at hok
      obtain ⟨h1, h2, h3⟩ := spaceLoop_tail_sound m T hsz hT hTdvd xs
        (x.ip + Size x.mask - 1) 1 (by omega)
        (by
          have heq : x.ip + Size x.mask - 1 + 1 = x.ip + Size x.mask := by omega
          rw [heq]
          exact Nat.dvd_add hdx hdsx)
        (by omega)
        (by
          intro e he
          obtain ⟨hde, hse, hdse, _, hbe⟩ := helems e (List.mem_cons_of_mem x he)
          exact ⟨hde, hse, hdse, by have := hxall e he; omega, hbe⟩)
        hpwxs v hok
      refine ⟨by omega, h2, ?_⟩
      intro e he
      rcases List.mem_cons.mp he with rfl | hexs
      · right; omega
      · exact h3 e hexs

/-- C4: `Free` fails with `maskTooBig` exactly when the parent's block size
is smaller than the requested block size; the check runs before boundaries
or free ranges are computed, and no later stage can produce this error. -/
theorem free_maskTooBig_iff (P : IPNet) (m : ℕ) (E : List IPNet) :
    Free P m E = .error .maskTooBig ↔ Size P.mask < Size m := by
  rw [free_unfold]
  constructor
  · intro h
    by_contra hmask
    rw [if_neg hmask] at h
    cases hs : Space (gapRanges (Range P).1 (sortNets (sortNets E)) (Range P).2) m with
    | error e =>
      rw [hs] at h
      simp at h
      have he := space_err _ _ _ hs
      rw [h] at he
      simp at he
    | ok v =>
      rw [hs] at h
      by_cases hc : Contains P (IPToDecimal (DecimalToIP v)) = false
      · simp [hc] at h
      · simp [hc] at h
  · intro h
    rw [if_pos h]

/-- C6: a successful `Free` returns a network whose mask is exactly the
requested mask and whose base address passes the parent's containment
test. -/
theorem free_ok_mask_and_contained (P : IPNet) (m : ℕ) (E : List IPNet) (n : IPNet)
    (hok : Free P m E = .ok n) : n.mask = m ∧ Contains P n.ip = true := by
  rw [free_unfold] at hok
  by_cases hmask : Size P.mask < Size m
  · rw [if_pos hmask] at hok
    simp at hok
  · rw [if_neg hmask] at hok
    cases hs : Space (gapRanges (Range P).1 (sortNets (sortNets E)) (Range P).2) m with
    | error e =>
      rw [hs] at hok
      simp at hok
    | ok v =>
      rw [hs] at hok
      by_cases hc : Contains P (IPToDecimal (DecimalToIP v)) = false
      · simp [hc] at hok
      · simp only [Bool.not_eq_false] at hc
        simp only [hc, Bool.true_eq_false, if_false] at hok
        cases hok
        exact ⟨rfl, hc⟩

/-- C6 witness: allocating a `/24` inside `10.4.0.0/16` with `10.4.0.0/24`
in use returns `10.4.1.0/24`, whose mask is the requested one and whose
base is contained in the parent. -/
theorem free_ok_mask_and_contained_witness :
    Free wParent 24 [wUsed] = .ok ⟨168034560, 24⟩ ∧
    ((⟨168034560, 24⟩ : IPNet).mask = 24 ∧ Contains wParent (⟨168034560, 24⟩ : IPNet).ip = true) :=
  ⟨rfl, free_ok_mask_and_contained wParent 24 [wUsed] ⟨168034560, 24⟩ rfl⟩

/-- C1 counterexample: with parent `10.0.0.0/24`, in-use set
`{10.0.0.1/32}` (canonical, strictly contained, trivially pairwise
non-overlapping) and requested mask `/31`, `Free` succeeds with
`10.0.0.0/31`, whose inclusive range `[10.0.0.0, 10.0.0.1]` overlaps the
in-use block `10.0.0.1/32`: the first free range counts the occupied
boundary address as free. -/
theorem free_overlap_counterexample :
    Canonical cParent ∧ Canonical cUsed ∧ StrictlyInside cUsed cParent ∧
    List.Pairwise (fun a b : IPNet => ¬ Overlap a b) [cUsed] ∧
    Free cParent 31 [cUsed] = .ok ⟨167772160, 31⟩ ∧
    Overlap ⟨167772160, 31⟩ cUsed :=
  ⟨by decide, by decide, by decide, List.pairwise_singleton _ _, rfl, by decide⟩

/-- C1 amended: for a canonical parent and canonical, strictly contained,
pairwise non-overlapping in-use networks, if additionally the requested
prefix is between 1 and 30 and no in-use block is smaller than the
requested size, then a network returned by `Free` does not overlap any
in-use network. -/
theorem free_result_no_overlap (P : IPNet) (m : ℕ) (E : List IPNet) (n : IPNet)
    (hm1 : 1 ≤ m) (hm30 : m ≤ 30)
    (hP : Canonical P)
    (hE : ∀ e ∈ E, Canonical e ∧ StrictlyInside e P ∧ Size m ≤ Size e.mask)
    (hpw : List.Pairwise (fun a b : IPNet => ¬ Overlap a b) E)
    (hok : Free P m E = .ok n) :
    ∀ e ∈ E, ¬ Overlap n e := by
  obtain ⟨hPmask, hPip, hPdvd⟩ := hP
  have hszeq : Size m = 2 ^ (32 - m) := Size_eq m hm1
  have hsz : 4 ≤ Size m := by
    rw [hszeq]
    calc (4 : ℕ) = 2 ^ 2 := by norm_num
    _ ≤ 2 ^ (32 - m) := Nat.pow_le_pow_right (by norm_num) (by omega)
  rw [free_unfold] at hok
  by_cases hmask : Size P.mask < Size m
  · rw [if_pos hmask] at hok
    simp at hok
  · rw [if_neg hmask] at hok
    have hSzP : Size m ≤ Size P.mask := not_lt.mp hmask
    have hPm1 : 1 ≤ P.mask := Size_pos_mask P.mask (by omega)
    have hadd : P.ip + Size P.mask ≤ 2 ^ 32 := by
      rcases Nat.eq_zero_or_pos P.ip with h0 | h0
      · rw [h0]
        simpa using Size_le P.mask
      · exact dvd_lt_add_le hPdvd (Size_dvd_two32 P.mask hPm1) hPip
    have hT : (Range P).2 = P.ip + Size P.mask - 1 :=
      rangeEnd_eq P (by omega) hadd
    set T := P.ip + Size P.mask - 1 with hTdef
    have hTlt : T < 2 ^ 32 := by omega
    have hdvdP : Size m ∣ Size P.mask := Size_dvd_Size hm1 hPm1 hSzP
    have hdvdS : Size m ∣ P.ip := dvd_trans hdvdP hPdvd
    have hTdvd : Size m ∣ T + 1 := by
      have heq : T + 1 = P.ip + Size P.mask := by omega
      rw [heq]
      exact Nat.dvd_add hdvdS hdvdP
    have hST : P.ip ≤ T := by omega
    have hpermE : (sortNets (sortNets E)).Perm E :=
      (sortNets_perm (sortNets E)).trans (sortNets_perm E)
    have hmem : ∀ e : IPNet, e ∈ sortNets (sortNets E) ↔ e ∈ E := fun e => hpermE.mem_iff
    have helems : ∀ e ∈ sortNets (sortNets E),
        Size m ∣ e.ip ∧ Size m ≤ Size e.mask ∧ Size m ∣ Size e.mask ∧
        P.ip ≤ e.ip ∧ e.ip + Size e.mask ≤ T + 1 := by
      intro e he
      obtain ⟨⟨hem, heip, hedvd⟩, ⟨hin1, hin2, hin3⟩, hse⟩ := hE e ((hmem e).mp he)
      have hem1 : 1 ≤ e.mask := Size_pos_mask e.mask (by omega)
      have hdvde : Size m ∣ Size e.mask := Size_dvd_Size hm1 hem1 hse
      exact ⟨dvd_trans hdvde hedvd, hse, hdvde, hin1, by omega⟩
    have hsorted : List.Pairwise (fun a b : IPNet => a.ip ≤ b.ip) (sortNets (sortNets E)) :=
      sortNets_sorted (sortNets E)
    have hpwL : List.Pairwise (fun a b : IPNet => ¬ Overlap a b) (sortNets (sortNets E)) :=
      hpw.perm hpermE.symm (fun {a b} hab => fun ho => hab ⟨ho.2, ho.1⟩)
    have hchain : List.Pairwise (fun a b : IPNet => a.ip + Size a.mask ≤ b.ip)
        (sortNets (sortNets E)) := by
      refine (hsorted.and hpwL).imp_of_mem ?_
      intro a b ha hb hab
      obtain ⟨hda, hsa, hdsa, hia, hba⟩ := helems a ha
      obtain ⟨hdb, hsb, hdsb, hib, hbb⟩ := helems b hb
      have hra : (Range a).2 = a.ip + Size a.mask - 1 := rangeEnd_eq a (by omega) (by omega)
      have hrb : (Range b).2 = b.ip + Size b.mask - 1 := rangeEnd_eq b (by omega) (by omega)
      obtain ⟨hle, hno⟩ := hab
      by_contra hcon
      exact hno ⟨by simp only [Range, hrb] at *; omega, by simp only [Range, hra] at *; omega⟩
    cases hs : Space (gapRanges (Range P).1 (sortNets (sortNets E)) (Range P).2) m with
    | error e =>
      rw [hs] at hok
      simp at hok
    | ok v =>
      rw [hs] at hok
      by_cases hc : Contains P (IPToDecimal (DecimalToIP v)) = false
      · simp [hc] at hok
      · simp only [Bool.not_eq_false] at hc
        simp only [hc, Bool.true_eq_false, if_false] at hok
        injection hok with hinj
        rw [Space.eq_def] at hs
        rw [hT] at hs
        obtain ⟨h1, h2, h3⟩ := spaceLoop_head_sound m T hsz hTlt hTdvd P.ip hdvdS hST
          (sortNets (sortNets E)) helems hchain v hs
        have hvlt : v < 2 ^ 32 := by omega
        have hnip : IPToDecimal (DecimalToIP v) = v := by
          rw [ipToDecimal_decimalToIP]
          exact Nat.mod_eq_of_lt hvlt
        have hnip2 : n.ip = v := by
          rw [← hinj]
          exact hnip
        have hnmask : n.mask = m := by rw [← hinj]
        have hrn1 : (Range n).1 = v := hnip2
        have hrn2 : (Range n).2 = v + Size m - 1 := by
          have h := rangeEnd_eq n (by rw [hnmask]; omega) (by rw [hnmask, hnip2]; omega)
          rw [hnip2, hnmask] at h
          exact h
        intro e he
        obtain ⟨hde, hse, hdse, hie, hbe⟩ := helems e ((hmem e).mpr he)
        have hre2 : (Range e).2 = e.ip + Size e.mask - 1 := rangeEnd_eq e (by omega) (by omega)
        have hre1 : (Range e).1 = e.ip := rfl
        intro ho
        obtain ⟨ho1, ho2⟩ := ho
        rw [hrn1, hre2] at ho1
        rw [hre1, hrn2] at ho2
        rcases h3 e ((hmem e).mpr he) with hleft | hright
        · omega
        · omega

/-- C1 witness for the amended theorem: allocating a `/24` inside
`10.4.0.0/16` with `10.4.0.0/24` in use yields `10.4.1.0/24`, which does
not overlap the in-use block. -/
theorem free_result_no_overlap_witness :
    Free wParent 24 [wUsed] = .ok ⟨168034560, 24⟩ ∧
    ∀ e ∈ [wUsed], ¬ Overlap ⟨168034560, 24⟩ e :=
  ⟨rfl, free_result_no_overlap wParent 24 [wUsed] ⟨168034560, 24⟩ (by decide) (by decide)
    (by decide) (by decide) (List.pairwise_singleton _ _) rfl⟩

end Ipam
